import Mathlib

/-!
Verification of the secure file-management layer of the projmcp server.

The definitions below are a shallow embedding of the TypeScript sources:
  - src/src/utils/security-validator.ts (SecurityValidator, DEFAULT_SECURITY_CONFIG)
  - src/unnamed/part_004 (FileManager)
  - src/src/tools/show-current.ts (ShowCurrentTool)
  - src/src/types.ts (FILE_PATTERNS, FileType)

Strings are modelled as Lean strings (lists of Unicode characters); the
JavaScript string length (UTF-16 code units) is modelled by the character
count, which agrees on the ASCII inputs considered here.  Node path
functions (posix normalize, resolve, basename) are modelled for the
absolute trusted roots the program constructs.  The filesystem is modelled
as a map from absolute path strings to file contents; directory creation
(fs.mkdir in ensureProjectPlanDir) has no observable effect on that map
and is omitted.  The fixed regular expressions of the source are compiled
by hand into character-list scanners whose documentation states the
pattern they implement.
-/

set_option maxRecDepth 40000

namespace ProjMCP

/-- Character test for the regex digit class (ASCII 0 to 9). -/
def isDigitCh (c : Char) : Bool := '0' ≤ c && c ≤ '9'

/-- Word characters of the JavaScript regex word class: ASCII letters, digits and underscore. -/
def isWordCh (c : Char) : Bool :=
  ('a' ≤ c && c ≤ 'z') || ('A' ≤ c && c ≤ 'Z') || isDigitCh c || c == '_'

/-- Whitespace characters of the JavaScript regex space class (tab, line feed, vertical
tab, form feed, carriage return, space, no-break space, byte order mark and the
Unicode line and paragraph separators; the rare Unicode space separators are omitted,
none of the theorems below depends on them). -/
def isSpaceCh (c : Char) : Bool :=
  c == ' ' || c == '\t' || c == '\n' || c == '\x0b' || c == '\x0c' || c == '\r' ||
  c == '\u00A0' || c == '\u2028' || c == '\u2029' || c == '\uFEFF'

/-- Line terminators, the characters the JavaScript regex dot does not match. -/
def isLineTerm (c : Char) : Bool :=
  c == '\n' || c == '\r' || c == '\u2028' || c == '\u2029'

/-- Index of the first occurrence of sub at position idx or later, where the first
argument list is the suffix of the scanned text that begins at absolute position idx.
Mirrors JavaScript String.indexOf restricted to that suffix. -/
def findSubAux (sub : List Char) : List Char → Nat → Option Nat
  | [], i => if sub = [] then some i else none
  | c :: t, i => if sub.isPrefixOf (c :: t) then some i else findSubAux sub t (i + 1)

/-- Substring test, mirroring JavaScript String.prototype.includes. -/
def containsSub (s sub : String) : Bool := (findSubAux sub.data s.data 0).isSome

/-- Prefix test, mirroring JavaScript String.prototype.startsWith. -/
def strStartsWith (s pre : String) : Bool := pre.data.isPrefixOf s.data

/-- Suffix test, mirroring JavaScript String.prototype.endsWith. -/
def strEndsWith (s post : String) : Bool := post.data.isSuffixOf s.data

/-- Split a character list on the path separator, keeping empty segments. -/
def splitSlashAux (acc : List Char) : List Char → List (List Char)
  | [] => [acc.reverse]
  | c :: t => if c == '/' then acc.reverse :: splitSlashAux [] t else splitSlashAux (c :: acc) t

/-- One step of the Node posix path segment normalization: empty and dot segments are
dropped; a dot-dot segment pops the previous segment when one is available, is kept
for relative paths (allowAbove true) and is dropped at the root of absolute paths. -/
def normStep (allowAbove : Bool) (stack : List (List Char)) (seg : List Char) :
    List (List Char) :=
  if seg = [] || seg = ['.'] then stack
  else if seg = ['.', '.'] then
    match stack with
    | t :: rest =>
      if t ≠ ['.', '.'] then rest
      else if allowAbove then seg :: stack else stack
    | [] => if allowAbove then [seg] else []
  else seg :: stack

/-- Normalized segment list of a path, mirroring normalizeString of node:path (posix). -/
def normSegs (allowAbove : Bool) (segs : List (List Char)) : List (List Char) :=
  (segs.foldl (normStep allowAbove) []).reverse

/-- Join segments with the path separator. -/
def joinSlash (segs : List (List Char)) : List Char := List.intercalate ['/'] segs

/-- Model of node:path posix normalize. -/
def normalizePath (p : String) : String :=
  if p = "" then "."
  else
    let l := p.data
    let isAbs := l.head? = some '/'
    let trail := l.getLast? = some '/'
    let segs := normSegs (!isAbs) (splitSlashAux [] l)
    if segs = [] then
      (if isAbs then "/" else if trail then "./" else ".")
    else
      let body := joinSlash segs
      let body := if trail then body ++ ['/'] else body
      String.mk (if isAbs then '/' :: body else body)

/-- Model of node:path posix resolve applied to a single absolute argument: segment
normalization with dot-dot stopped at the root and no trailing separator.  The
program only resolves against absolute trusted roots (process.cwd() based), so the
relative-argument branch of resolve, which would consult the working directory, is
not modelled. -/
def resolveAbs (p : String) : String :=
  String.mk ('/' :: joinSlash (normSegs false (splitSlashAux [] p.data)))

/-- Model of node:path posix resolve(base, p) for an absolute base. -/
def resolvePath (base p : String) : String :=
  if strStartsWith p "/" then resolveAbs p else resolveAbs (base ++ "/" ++ p)

/-- Model of node:path posix basename: the last nonempty path segment. -/
def basenameOf (p : String) : String :=
  String.mk ((((splitSlashAux [] p.data).filter (· ≠ [])).getLast?).getD [])

/-- DEFAULT_SECURITY_CONFIG.maxFileSize. -/
def maxFileSize : Nat := 1048576

/-- DEFAULT_SECURITY_CONFIG.maxContentLength. -/
def maxContentLength : Nat := 524288

/-- DEFAULT_SECURITY_CONFIG.maxFilenameLength. -/
def maxFilenameLength : Nat := 200

/-- DEFAULT_SECURITY_CONFIG.allowedFileExtensions. -/
def allowedFileExtensions : List String := [".md", ".json", ".txt"]

/-- Characters accepted by the filename regex of validateFilePath:
ASCII letters, digits, dot, underscore and hyphen. -/
def isSafeFilenameChar (c : Char) : Bool :=
  ('a' ≤ c && c ≤ 'z') || ('A' ≤ c && c ≤ 'Z') || isDigitCh c ||
  c == '.' || c == '_' || c == '-'

/-- Character-wise lower casing of a string (ASCII, as the inputs here are ASCII). -/
def lowerStr (s : String) : String := String.mk (s.data.map Char.toLower)

/-- SecurityValidator.validateFilePath from security-validator.ts, for the trusted
base path given as first argument: rejects the empty string and over-long paths,
normalizes and resolves the candidate, requires the resolved path to have the
resolved trusted base as a string prefix (String.prototype.startsWith), rejects
normalized paths still containing dot-dot or tilde, then checks the filename
character policy and the allowed extensions, returning the resolved path. -/
def validateFilePath (root filePath : String) : Except String String :=
  if filePath = "" then
    .error "SecurityValidation: File path must be a non-empty string"
  else if filePath.length > maxFilenameLength then
    .error "SecurityValidation: File path exceeds maximum length of 200"
  else
    let normalizedPath := normalizePath filePath
    let resolvedPath := resolvePath root normalizedPath
    if !strStartsWith resolvedPath (resolveAbs root) then
      .error "SecurityValidation: Path traversal detected - access denied"
    else if containsSub normalizedPath ".." || containsSub normalizedPath "~" then
      .error "SecurityValidation: Dangerous path patterns detected"
    else
      let filename := basenameOf resolvedPath
      if filename == "" || !(filename.data.all isSafeFilenameChar) then
        .error "SecurityValidation: Invalid filename - only alphanumeric, dots, underscores, and hyphens allowed"
      else if !(allowedFileExtensions.any fun ext => strEndsWith (lowerStr filename) (lowerStr ext)) then
        .error "SecurityValidation: File extension not allowed"
      else
        .ok resolvedPath

/-- Scanner for the script-tag pattern of DEFAULT_SECURITY_CONFIG (case-insensitive,
applied to the lower-cased text).  The first argument is the suffix of the text
beginning at the absolute position given by the second argument.  A match starting
at position i requires the literal characters of an opening script tag at i, a word
boundary after them, and a closing script tag at some later position; the match ends
immediately after the first closing tag, the value the engine assigns to lastIndex. -/
def scanScript : List Char → Nat → Option Nat
  | [], _ => none
  | c :: t, i =>
    if "<script".data.isPrefixOf (c :: t)
        && (match (c :: t).drop 7 with | [] => true | d :: _ => !isWordCh d) then
      match findSubAux "</script>".data ((c :: t).drop 7) (i + 7) with
      | some j => some (j + 9)
      | none => scanScript t (i + 1)
    else scanScript t (i + 1)

/-- Scanner for the javascript protocol pattern of DEFAULT_SECURITY_CONFIG: first
occurrence of the literal protocol string in the lower-cased text, reported by its
end position. -/
def scanJsProto (l : List Char) (li : Nat) : Option Nat :=
  (findSubAux "javascript:".data (l.drop li) li).map (· + 11)

/-- Scanner for the iframe-tag pattern of DEFAULT_SECURITY_CONFIG: an opening iframe
literal with a word boundary, then any characters other than a closing angle bracket,
then a closing angle bracket, whose position ends the match. -/
def scanIframe : List Char → Nat → Option Nat
  | [], _ => none
  | c :: t, i =>
    if "<iframe".data.isPrefixOf (c :: t)
        && (match (c :: t).drop 7 with | [] => true | d :: _ => !isWordCh d) then
      match findSubAux ['>'] ((c :: t).drop 7) (i + 7) with
      | some j => some (j + 1)
      | none => scanIframe t (i + 1)
    else scanIframe t (i + 1)

/-- Scanner for the event-handler pattern of DEFAULT_SECURITY_CONFIG: the two letters
of the on prefix, one or more word characters, optional whitespace, then an equals
sign.  Only the maximal word and whitespace runs can complete a match, because a word
character is neither whitespace nor an equals sign, so the scan is deterministic. -/
def scanHandler : List Char → Nat → Option Nat
  | [], _ => none
  | c :: t, i =>
    if "on".data.isPrefixOf (c :: t) then
      let rest := (c :: t).drop 2
      let w := (rest.takeWhile isWordCh).length
      if w = 0 then scanHandler t (i + 1)
      else
        let rest2 := rest.drop w
        let sp := (rest2.takeWhile isSpaceCh).length
        match rest2.drop sp with
        | '=' :: _ => some (i + 2 + w + sp + 1)
        | _ => scanHandler t (i + 1)
    else scanHandler t (i + 1)

/-- Scanner for the eval-call pattern of DEFAULT_SECURITY_CONFIG: the four letters of
the eval literal, optional whitespace, then an opening parenthesis. -/
def scanEvalCall : List Char → Nat → Option Nat
  | [], _ => none
  | c :: t, i =>
    if "eval".data.isPrefixOf (c :: t) then
      let rest := (c :: t).drop 4
      let sp := (rest.takeWhile isSpaceCh).length
      match rest.drop sp with
      | '(' :: _ => some (i + 4 + sp + 1)
      | _ => scanEvalCall t (i + 1)
    else scanEvalCall t (i + 1)

/-- Run a scanner on the whole lower-cased text from a given start position. -/
def scanFrom (scan : List Char → Nat → Option Nat) (l : List Char) (li : Nat) :
    Option Nat := scan (l.drop li) li

/-- The lastIndex values of the five shared forbidden-pattern RegExp objects of
DEFAULT_SECURITY_CONFIG.  The regular expressions are constructed once at module
load with the global flag, so RegExp.prototype.test starts each search at the
stored lastIndex, stores the end of a found match back into it and resets it to
zero on a failed search. -/
structure PatSt where
  s1 : Nat
  s2 : Nat
  s3 : Nat
  s4 : Nat
  s5 : Nat
deriving DecidableEq, Repr

/-- Initial state of the shared regular expressions, as after module load. -/
def PatSt.zero : PatSt := ⟨0, 0, 0, 0, 0⟩

/-- RegExp.prototype.test on a regex with the global flag: search from lastIndex;
on success return the end of the match as the new lastIndex, on failure reset it. -/
def testG (scan : List Char → Nat → Option Nat) (l : List Char) (li : Nat) :
    Bool × Nat :=
  match scanFrom scan l li with
  | some e => (true, e)
  | none => (false, 0)

/-- Error message of a forbidden-pattern hit in validateFileContent (the optional
context argument of the source only extends this message and is not modelled). -/
def maliciousMsg : String := "SecurityValidation: Potentially malicious content detected"

/-- Error message of the content length check of validateFileContent. -/
def contentLenMsg : String :=
  "SecurityValidation: Content exceeds maximum length of 524288 characters"

/-- Error message of the null-byte check of validateFileContent. -/
def binaryMsg : String := "SecurityValidation: Binary content not allowed in text files"

/-- SecurityValidator.validateFileContent from security-validator.ts, with the state
of the five shared global-flag regexes threaded explicitly: the length check, then
the forbidden patterns in declaration order, each test starting at that pattern
regex lastIndex, then the null-byte check.  The first failing check aborts the call,
leaving the lastIndex values the tests have produced so far. -/
def validateFileContentST (content : String) (st : PatSt) : Except String Unit × PatSt :=
  if content.length > maxContentLength then (.error contentLenMsg, st)
  else
    let l := content.data.map Char.toLower
    let r1 := testG scanScript l st.s1
    if r1.1 then (.error maliciousMsg, { st with s1 := r1.2 })
    else
      let r2 := testG scanJsProto l st.s2
      if r2.1 then (.error maliciousMsg, { st with s1 := r1.2, s2 := r2.2 })
      else
        let r3 := testG scanIframe l st.s3
        if r3.1 then (.error maliciousMsg, { st with s1 := r1.2, s2 := r2.2, s3 := r3.2 })
        else
          let r4 := testG scanHandler l st.s4
          if r4.1 then
            (.error maliciousMsg, { st with s1 := r1.2, s2 := r2.2, s3 := r3.2, s4 := r4.2 })
          else
            let r5 := testG scanEvalCall l st.s5
            let st' : PatSt := ⟨r1.2, r2.2, r3.2, r4.2, r5.2⟩
            if r5.1 then (.error maliciousMsg, st')
            else if content.data.contains '\x00' then (.error binaryMsg, st')
            else (.ok (), st')

/-- SecurityValidator.validateFileContent on fresh regexes (all lastIndex zero),
the behaviour the surrounding code relies on: length check, the five forbidden
patterns searched from the start of the content, then the null-byte check. -/
def validateFileContent (content : String) : Except String Unit :=
  if content.length > maxContentLength then .error contentLenMsg
  else
    let l := content.data.map Char.toLower
    if (scanFrom scanScript l 0).isSome then .error maliciousMsg
    else if (scanFrom scanJsProto l 0).isSome then .error maliciousMsg
    else if (scanFrom scanIframe l 0).isSome then .error maliciousMsg
    else if (scanFrom scanHandler l 0).isSome then .error maliciousMsg
    else if (scanFrom scanEvalCall l 0).isSome then .error maliciousMsg
    else if content.data.contains '\x00' then .error binaryMsg
    else .ok ()

/-- SecurityValidator.validateFileSize from security-validator.ts.  Sizes are
natural numbers in the model, so the negative and non-integer rejections of the
source are vacuous and only the limit check remains. -/
def validateFileSize (sizeInBytes : Nat) : Except String Unit :=
  if sizeInBytes > maxFileSize then
    .error "SecurityValidation: File size exceeds maximum allowed"
  else .ok ()

/-- SecurityValidator.validateFileOperation from security-validator.ts: path check,
then content check, then size check on the UTF-8 byte length of the content,
returning the validated path. -/
def validateFileOperation (root filePath content : String) : Except String String :=
  match validateFilePath root filePath with
  | .error e => .error e
  | .ok validatedPath =>
    match validateFileContent content with
    | .error e => .error e
    | .ok _ =>
      match validateFileSize content.utf8ByteSize with
      | .error e => .error e
      | .ok _ => .ok validatedPath

/-- The resolved project_plan directory of the FileManager instance, the value of
resolve(basePath, "project_plan") for the process working directory used here. -/
def projectPlanDir : String := "/home/user/project_plan"

/-- Filesystem contents as a map from absolute path strings to file contents. -/
def FSys : Type := String → Option String

/-- The empty filesystem. -/
def FSys.empty : FSys := fun _ => none

/-- Write or overwrite one path. -/
def FSys.set (fs : FSys) (k v : String) : FSys := fun x => if x = k then some v else fs x

/-- Remove one path. -/
def FSys.del (fs : FSys) (k : String) : FSys := fun x => if x = k then none else fs x

/-- FileManager.writeFile from the file-manager source, with the outcome of the
underlying fs.writeFile call injected as the writeOk flag: validation through
validateFileOperation, then for an existing target a backup copy at the target path
extended with a backup suffix and the wall-clock timestamp ts; a successful write
stores the content and unlinks the backup; a failed write (error message werr)
leaves the junk content leftover at the target, restores the original by renaming
the backup over the target when the backup exists, and propagates werr.  Directory
creation by ensureProjectPlanDir does not affect the path map and is omitted;
fs.copyFile, fs.unlink and fs.rename are the map operations of the model. -/
def writeFileM (fs : FSys) (fileName content : String) (ts : Nat) (writeOk : Bool)
    (leftover werr : String) : Except String String × FSys :=
  match validateFileOperation projectPlanDir fileName content with
  | .error e => (.error e, fs)
  | .ok validatedPath =>
    match fs validatedPath with
    | some original =>
      let backupPath := validatedPath ++ ".backup." ++ toString ts
      let fs1 := fs.set backupPath original
      if writeOk then
        (.ok validatedPath, (fs1.set validatedPath content).del backupPath)
      else
        let fs2 := fs1.set validatedPath leftover
        match fs2 backupPath with
        | some b => (.error werr, (fs2.set validatedPath b).del backupPath)
        | none => (.error werr, fs2)
    | none =>
      if writeOk then (.ok validatedPath, fs.set validatedPath content)
      else (.error werr, fs.set validatedPath leftover)

/-- SecurityValidator.validateFileOperation with the state of the shared
forbidden-pattern regexes threaded explicitly: path check, then the stateful
content check, then the size check, returning the validated path together with
the regex state the content check leaves behind. -/
def validateFileOperationST (root filePath content : String) (st : PatSt) :
    Except String String × PatSt :=
  match validateFilePath root filePath with
  | .error e => (.error e, st)
  | .ok validatedPath =>
    match validateFileContentST content st with
    | (.error e, st') => (.error e, st')
    | (.ok _, st') =>
      match validateFileSize content.utf8ByteSize with
      | .error e => (.error e, st')
      | .ok _ => (.ok validatedPath, st')

/-- FileManager.writeFile with the state of the shared forbidden-pattern regexes
threaded through the validation.  The filesystem logic is that of writeFileM; the
regex state the validation leaves behind is returned alongside, so that the effect
of one call on the next is visible. -/
def writeFileMST (fs : FSys) (fileName content : String) (ts : Nat) (writeOk : Bool)
    (leftover werr : String) (st : PatSt) : (Except String String × FSys) × PatSt :=
  match validateFileOperationST projectPlanDir fileName content st with
  | (.error e, st') => ((.error e, fs), st')
  | (.ok validatedPath, st') =>
    (match fs validatedPath with
     | some original =>
       let backupPath := validatedPath ++ ".backup." ++ toString ts
       let fs1 := fs.set backupPath original
       if writeOk then
         ((.ok validatedPath, (fs1.set validatedPath content).del backupPath), st')
       else
         let fs2 := fs1.set validatedPath leftover
         match fs2 backupPath with
         | some b => ((.error werr, (fs2.set validatedPath b).del backupPath), st')
         | none => ((.error werr, fs2), st')
     | none =>
       if writeOk then ((.ok validatedPath, fs.set validatedPath content), st')
       else ((.error werr, fs.set validatedPath leftover), st'))

/-- FileManager.readFile from the file-manager source: path validation, an
accessibility probe of the validated path, the read itself, then defensive content
validation of what was read. -/
def readFileM (fs : FSys) (filePath : String) : Except String String :=
  match validateFilePath projectPlanDir filePath with
  | .error e => .error e
  | .ok validatedPath =>
    match fs validatedPath with
    | none => .error ("File not accessible: " ++ validatedPath)
    | some content =>
      match validateFileContent content with
      | .error e => .error e
      | .ok _ => .ok content

/-- Response envelope of a tool: the text shown to the caller and the error flag. -/
structure ToolResp where
  text : String
  isError : Bool
deriving DecidableEq, Repr

/-- The fixed failure message of ShowCurrentTool. -/
def showCurrentMsg : String := "CURRENT.md not found. Please run init_project_plan first."

/-- ShowCurrentTool.execute from show-current.ts: read CURRENT.md through the
FileManager; any failure is caught and replaced by the one fixed message with the
error flag set. -/
def showCurrent (fs : FSys) : ToolResp :=
  match readFileM fs "CURRENT.md" with
  | .ok content => { text := content, isError := false }
  | .error _ => { text := showCurrentMsg, isError := true }

/-- FileType from types.ts. -/
inductive FileType where
  | all
  | sprint
  | doc
  | code
  | opinion
deriving DecidableEq, Repr

/-- Tail of an anchored pattern of FILE_PATTERNS: at least one character matched by
the regex dot (so no line terminator), followed by the literal markdown extension at
the end of the name. -/
def dotPlusMd (l : List Char) : Bool :=
  l.length ≥ 4 && (l.drop (l.length - 3) == ['.', 'm', 'd'])
    && (l.take (l.length - 3)).all (fun c => !isLineTerm c)

/-- FILE_PATTERNS.sprint: a milestone letter, two digits, an underscore, a sprint
letter, two digits, a dot, then the dot-plus-markdown tail, anchored. -/
def sprintPat (name : String) : Bool :=
  match name.data with
  | 'M' :: d1 :: d2 :: '_' :: 'S' :: d3 :: d4 :: '.' :: rest =>
    isDigitCh d1 && isDigitCh d2 && isDigitCh d3 && isDigitCh d4 && dotPlusMd rest
  | _ => false

/-- Three leading digits followed by a dot and the dot-plus-markdown tail, the part
of the doc and opinion patterns after their literal name stem. -/
def seqDotTail (l : List Char) : Bool :=
  match l with
  | d1 :: d2 :: d3 :: '.' :: rest =>
    isDigitCh d1 && isDigitCh d2 && isDigitCh d3 && dotPlusMd rest
  | _ => false

/-- FILE_PATTERNS.doc: the doc-reference stem, three digits, a dot, then the
dot-plus-markdown tail, anchored. -/
def docPat (name : String) : Bool :=
  if "DOCREF_".data.isPrefixOf name.data then seqDotTail (name.data.drop 7) else false

/-- FILE_PATTERNS.code: the code-reference stem then the dot-plus-markdown tail,
anchored. -/
def codePat (name : String) : Bool :=
  if "CODEREF_".data.isPrefixOf name.data then dotPlusMd (name.data.drop 8) else false

/-- FILE_PATTERNS.opinion: the opinions stem, three digits, a dot, then the
dot-plus-markdown tail, anchored. -/
def opinionPat (name : String) : Bool :=
  if "OPINIONS_".data.isPrefixOf name.data then seqDotTail (name.data.drop 9) else false

/-- FILE_PATTERNS.core: exactly one of the two fixed core document names. -/
def corePat (name : String) : Bool :=
  name == "PLAN.md" || name == "CURRENT.md"

/-- FileManager.categorizeFile: the sprint, doc, code and opinion patterns in that
order, with doc as the explicit default fallback.  The core pattern of
FILE_PATTERNS is never consulted and FileType has no core value. -/
def categorizeFile (fileName : String) : FileType :=
  if sprintPat fileName then .sprint
  else if docPat fileName then .doc
  else if codePat fileName then .code
  else if opinionPat fileName then .opinion
  else .doc

/-- FileManager.getTypeOrder: the sort rank of each file type. -/
def getTypeOrder : FileType → Nat
  | .sprint => 0
  | .doc => 1
  | .code => 2
  | .opinion => 3
  | .all => 4

/-- One file of the managed directory as the model presents it to listFiles: its
name, its text content and its modification time in epoch milliseconds. -/
structure DirEntry where
  name : String
  content : String
  mtime : Nat
deriving DecidableEq, Repr

/-- FileInfo from types.ts; lastModified is kept as epoch milliseconds (the source
converts the same instant to an ISO string and back without loss). -/
structure FileInfo where
  name : String
  path : String
  ftype : FileType
  lineCount : Nat
  lastModified : Nat
  size : Nat
deriving DecidableEq, Repr

/-- Lexicographic comparison of lists from a comparison of their elements. -/
def lexCmp (cmp : α → α → Ordering) : List α → List α → Ordering
  | [], [] => .eq
  | [], _ :: _ => .lt
  | _ :: _, [] => .gt
  | a :: as, b :: bs =>
    match cmp a b with
    | .eq => lexCmp cmp as bs
    | o => o

/-- Comparison of characters by code point. -/
def charCmp (a b : Char) : Ordering := compare a.toNat b.toNat

/-- Model of String.prototype.localeCompare for the ASCII names used by the
program, following the default (root) collation: primary comparison of the
lower-cased character sequences, and for primarily equal names a tertiary
comparison placing lower case before upper case at the first case difference.
List comparisons are lexicographic. -/
def localeCmp (s t : String) : Ordering :=
  match lexCmp charCmp (s.data.map Char.toLower) (t.data.map Char.toLower) with
  | .eq =>
    lexCmp compare
      (s.data.map fun c => if c.isUpper then (1 : Nat) else 0)
      (t.data.map fun c => if c.isUpper then (1 : Nat) else 0)
  | o => o

/-- The comparator of FileManager.listFiles: rank difference for distinct types,
locale comparison of the names otherwise, as an Ordering. -/
def jsCompare (a b : FileInfo) : Ordering :=
  if a.ftype ≠ b.ftype then compare (getTypeOrder a.ftype) (getTypeOrder b.ftype)
  else localeCmp a.name b.name

/-- The at-most relation induced by the listFiles comparator, used by the sort. -/
def jsSortLe (a b : FileInfo) : Bool :=
  match jsCompare a b with
  | .gt => false
  | _ => true

/-- Insert an element before the first existing element it is at most equal to;
the insertion step of a stable sort. -/
def insOrd (le : α → α → Bool) (a : α) : List α → List α
  | [] => [a]
  | b :: t => if le a b then a :: b :: t else b :: insOrd le a t

/-- Stable sort by repeated ordered insertion.  Array.prototype.sort is a stable
sort when the comparator is consistent, and every stable sort of a list by the
same total preorder yields the same output, so this models the sort call of
listFiles. -/
def stableSort (le : α → α → Bool) (l : List α) : List α :=
  l.foldr (insOrd le) []

/-- FileManager.listFiles: keep the markdown files, categorize each name, apply the
type filter, build the metadata record (line count splits on line feeds, size is
the UTF-8 byte length fs.stat reports), then sort with the type-then-name
comparator.  The per-file read in the source cannot fail in this model, so the
skip-on-read-failure branch is not reachable. -/
def listFiles (d : List DirEntry) (ftype : FileType := .all) : List FileInfo :=
  let fileInfos := d.filterMap fun e =>
    if !strEndsWith e.name ".md" then none
    else
      let ft := categorizeFile e.name
      if ftype ≠ .all ∧ ft ≠ ftype then none
      else some { name := e.name, path := projectPlanDir ++ "/" ++ e.name, ftype := ft,
                  lineCount := e.content.data.count '\n' + 1,
                  lastModified := e.mtime, size := e.content.utf8ByteSize }
  stableSort jsSortLe fileInfos

/-- The counters of the filesByType record of ProjectStatus. -/
structure FileTypeCounts where
  all : Nat
  sprint : Nat
  doc : Nat
  code : Nat
  opinion : Nat
deriving DecidableEq, Repr

/-- One step of the counting loop of getProjectStatus: every file whose type is not
the all marker bumps the counter of its type. -/
def bumpCount (c : FileTypeCounts) : FileType → FileTypeCounts
  | .sprint => { c with sprint := c.sprint + 1 }
  | .doc => { c with doc := c.doc + 1 }
  | .code => { c with code := c.code + 1 }
  | .opinion => { c with opinion := c.opinion + 1 }
  | .all => c

/-- ProjectStatus from types.ts, with lastUpdated in epoch milliseconds. -/
structure ProjectStatus where
  hasProjectPlan : Bool
  totalFiles : Nat
  filesByType : FileTypeCounts
  lastUpdated : Nat
deriving DecidableEq, Repr

/-- FileManager.hasValidProjectPlan: both core documents exist in the directory. -/
def hasValidProjectPlan (d : List DirEntry) : Bool :=
  d.any (fun e => e.name == "PLAN.md") && d.any (fun e => e.name == "CURRENT.md")

/-- The spread of Math.max over a list of naturals, zero on the empty list; the
source only applies it to nonempty lists. -/
def listMax (l : List Nat) : Nat := l.foldl Nat.max 0

/-- FileManager.getProjectStatus: core-document probe, a fresh full listing, counts
accumulated over that listing starting from the total, and the maximal modification
time of the listed files, or the current time now when none were listed. -/
def getProjectStatus (d : List DirEntry) (now : Nat) : ProjectStatus :=
  let files := listFiles d
  let counts := files.foldl (fun c f => bumpCount c f.ftype)
    { all := files.length, sprint := 0, doc := 0, code := 0, opinion := 0 }
  let lastModified := if files.length > 0 then listMax (files.map (·.lastModified)) else now
  { hasProjectPlan := hasValidProjectPlan d, totalFiles := files.length,
    filesByType := counts, lastUpdated := lastModified }

/-- The record types of FileManager.generateFileName. -/
inductive RecordType where
  | doc
  | code
  | opinion
deriving DecidableEq, Repr

/-- The FileType a record type filters the listing by. -/
def RecordType.toFileType : RecordType → FileType
  | .doc => .doc
  | .code => .code
  | .opinion => .opinion

/-- The literal name stem generateFileName uses for each record type. -/
def RecordType.stem : RecordType → String
  | .doc => "DOCREF_"
  | .code => "CODEREF_"
  | .opinion => "OPINIONS_"

/-- Replace every maximal run of characters satisfying p by the single character
rep, via an in-run flag; helper for the regex replacements of sanitizeFileName. -/
def collapseRunsGo (p : Char → Bool) (rep : Char) : Bool → List Char → List Char
  | _, [] => []
  | inRun, c :: t =>
    if p c then
      if inRun then collapseRunsGo p rep true t
      else rep :: collapseRunsGo p rep true t
    else c :: collapseRunsGo p rep false t

/-- Replace every maximal run of characters satisfying p by one copy of rep. -/
def collapseRuns (p : Char → Bool) (rep : Char) (l : List Char) : List Char :=
  collapseRunsGo p rep false l

/-- FileManager.sanitizeFileName: lower case, strip every character that is not a
lower-case letter, digit, whitespace or hyphen, turn whitespace runs into single
underscores, collapse underscore runs, and trim leading and trailing underscores. -/
def sanitizeFileName (input : String) : String :=
  let l1 := input.data.map Char.toLower
  let l2 := l1.filter fun c => ('a' ≤ c && c ≤ 'z') || isDigitCh c || isSpaceCh c || c == '-'
  let l3 := collapseRuns isSpaceCh '_' l2
  let l4 := collapseRuns (· == '_') '_' l3
  let l5 := (l4.dropWhile (· == '_'))
  let l6 := (l5.reverse.dropWhile (· == '_')).reverse
  String.mk l6

/-- The capture of the sequence-number regex of generateFileName: when the name
starts with the given stem followed by three digits, the numeric value of those
digits. -/
def extractSeq (stem name : String) : Option Nat :=
  if stem.data.isPrefixOf name.data then
    match name.data.drop stem.length with
    | d1 :: d2 :: d3 :: _ =>
      if isDigitCh d1 && isDigitCh d2 && isDigitCh d3 then
        some ((d1.toNat - 48) * 100 + (d2.toNat - 48) * 10 + (d3.toNat - 48))
      else none
    | _ => none
  else none

/-- String.prototype.padStart(3, zero) applied to the decimal print of a number. -/
def pad3 (n : Nat) : String :=
  let s := toString n
  if s.length ≥ 3 then s else String.mk (List.replicate (3 - s.length) '0') ++ s

/-- FileManager.generateFileName: list the files of the category; for the numbered
doc and opinion categories extract the sequence numbers from the listed names,
take their maximum plus one (one when none exist), pad to three digits and append
the dot, the sanitized target and the extension; for code references the name is
the stem with the sanitized target and the extension. -/
def generateFileName (d : List DirEntry) (t : RecordType) (target : String) : String :=
  let files := listFiles d t.toFileType
  match t with
  | .code => t.stem ++ sanitizeFileName target ++ ".md"
  | _ =>
    let existingNumbers := files.filterMap fun f => extractSeq t.stem f.name
    let nextNumber := if existingNumbers = [] then 1 else listMax existingNumbers + 1
    t.stem ++ pad3 nextNumber ++ "." ++ sanitizeFileName target ++ ".md"

/-- Ordered category table written after the words of the specification: the four
tagged patterns the code consults, evaluated first-match-wins with doc as the
explicit default.  This spec-shaped definition exists only to be compared with
categorizeFile. -/
def categoryTable : List ((String → Bool) × FileType) :=
  [(sprintPat, .sprint), (docPat, .doc), (codePat, .code), (opinionPat, .opinion)]

/-- First-match-wins evaluation of the category table with the doc default. -/
def firstMatchCategory (name : String) : FileType :=
  match categoryTable.find? (fun pc => pc.1 name) with
  | some pc => pc.2
  | none => .doc

/-- Sequence numbers present in the managed directory for one record category,
read off directly from the directory in its given order: the markdown files whose
derived category is the record category, mapped through the sequence-number
extraction.  This spec-shaped definition is compared with what generateFileName
computes from the sorted listing. -/
def categorySeqNums (d : List DirEntry) (t : RecordType) : List Nat :=
  d.filterMap fun e =>
    if strEndsWith e.name ".md" && (categorizeFile e.name == t.toFileType) then
      extractSeq t.stem e.name
    else none

theorem FSys.set_self (fs : FSys) (k v : String) : fs.set k v k = some v := by
  simp [FSys.set]

theorem FSys.set_ne (fs : FSys) {k x : String} (v : String) (h : x ≠ k) :
    fs.set k v x = fs x := by
  simp [FSys.set, h]

theorem FSys.del_self (fs : FSys) (k : String) : fs.del k k = none := by
  simp [FSys.del]

theorem FSys.del_ne (fs : FSys) {k x : String} (h : x ≠ k) : fs.del k x = fs x := by
  simp [FSys.del, h]

theorem backup_ne (vp : String) (ts : Nat) : vp ++ ".backup." ++ toString ts ≠ vp := by
  intro h
  have hlen := congrArg String.length h
  have h8 : (".backup." : String).length = 8 := rfl
  rw [String.length_append, String.length_append, h8] at hlen
  omega

theorem validateFileOperation_ok {root filePath content vp : String}
    (h : validateFileOperation root filePath content = .ok vp) :
    validateFilePath root filePath = .ok vp ∧ validateFileContent content = .ok ()
      ∧ validateFileSize content.utf8ByteSize = .ok () := by
  unfold validateFileOperation at h
  cases h1 : validateFilePath root filePath with
  | error e => rw [h1] at h; simp at h
  | ok p =>
    rw [h1] at h
    cases h2 : validateFileContent content with
    | error e => rw [h2] at h; simp at h
    | ok u =>
      rw [h2] at h
      cases h3 : validateFileSize content.utf8ByteSize with
      | error e => rw [h3] at h; simp at h
      | ok u2 =>
        rw [h3] at h
        injection h with h
        subst h
        cases u
        cases u2
        exact ⟨rfl, rfl, rfl⟩

/-- C2.  Atomic overwrite: when writeFile targets an existing document and the
underlying write fails after the backup copy was made, the original content is
restored from the backup, the backup file is gone, no other path changed, and the
original write error (not any restore outcome) propagates; when the write succeeds,
the new content is in place, no backup file remains and no other path changed. -/
theorem C2_atomic_overwrite (fs : FSys) (fileName content original : String) (ts : Nat)
    (leftover werr vp : String)
    (hval : validateFileOperation projectPlanDir fileName content = .ok vp)
    (horig : fs vp = some original) :
    ((writeFileM fs fileName content ts false leftover werr).1 = .error werr
      ∧ (writeFileM fs fileName content ts false leftover werr).2 vp = some original
      ∧ (writeFileM fs fileName content ts false leftover werr).2
          (vp ++ ".backup." ++ toString ts) = none
      ∧ ∀ k, k ≠ vp → k ≠ vp ++ ".backup." ++ toString ts →
          (writeFileM fs fileName content ts false leftover werr).2 k = fs k)
    ∧ ((writeFileM fs fileName content ts true leftover werr).1 = .ok vp
      ∧ (writeFileM fs fileName content ts true leftover werr).2 vp = some content
      ∧ (writeFileM fs fileName content ts true leftover werr).2
          (vp ++ ".backup." ++ toString ts) = none
      ∧ ∀ k, k ≠ vp → k ≠ vp ++ ".backup." ++ toString ts →
          (writeFileM fs fileName content ts true leftover werr).2 k = fs k) := by
  have hbp : vp ++ ".backup." ++ toString ts ≠ vp := backup_ne vp ts
  have hbp2 : vp ≠ vp ++ ".backup." ++ toString ts := Ne.symm hbp
  constructor
  · unfold writeFileM
    rw [hval]
    refine ⟨?_, ?_, ?_, ?_⟩
    · simp [FSys.set, FSys.del, horig, hbp, hbp2]
    · simp [FSys.set, FSys.del, horig, hbp, hbp2]
    · simp [FSys.set, FSys.del, horig, hbp, hbp2]
    · intro k hk hkb
      simp [FSys.set, FSys.del, horig, hbp, hbp2, hk, hkb]
  · unfold writeFileM
    rw [hval]
    refine ⟨?_, ?_, ?_, ?_⟩
    · simp [horig]
    · simp [FSys.set, FSys.del, horig, hbp, hbp2]
    · simp [FSys.set, FSys.del, horig, hbp, hbp2]
    · intro k hk hkb
      simp [FSys.set, FSys.del, horig, hbp, hbp2, hk, hkb]

theorem C2_atomic_overwrite_witness :
    ((writeFileM (FSys.empty.set "/home/user/project_plan/ok.md" "orig")
        "ok.md" "new" 7 false "junk" "EIO").1 = .error "EIO"
      ∧ (writeFileM (FSys.empty.set "/home/user/project_plan/ok.md" "orig")
          "ok.md" "new" 7 false "junk" "EIO").2 "/home/user/project_plan/ok.md" = some "orig")
    ∧ ((writeFileM (FSys.empty.set "/home/user/project_plan/ok.md" "orig")
        "ok.md" "new" 7 true "junk" "EIO").2 "/home/user/project_plan/ok.md" = some "new"
      ∧ (writeFileM (FSys.empty.set "/home/user/project_plan/ok.md" "orig")
          "ok.md" "new" 7 true "junk" "EIO").2 "/home/user/project_plan/ok.md.backup.7" = none) := by
  have h := C2_atomic_overwrite (FSys.empty.set "/home/user/project_plan/ok.md" "orig")
    "ok.md" "new" "orig" 7 "junk" "EIO" "/home/user/project_plan/ok.md" rfl rfl
  exact ⟨⟨h.1.1, h.1.2.1⟩, ⟨h.2.2.1, h.2.2.2.1⟩⟩

/-- C3.  Round trip: for every file name and content accepted by the combined
validation, a successful writeFile followed by readFile of the same name returns
exactly the written content. -/
theorem C3_round_trip (fs : FSys) (fileName content : String) (ts : Nat)
    (leftover werr vp : String)
    (hval : validateFileOperation projectPlanDir fileName content = .ok vp) :
    readFileM (writeFileM fs fileName content ts true leftover werr).2 fileName
      = .ok content := by
  obtain ⟨hpath, hcont, _⟩ := validateFileOperation_ok hval
  have hbp : vp ++ ".backup." ++ toString ts ≠ vp := backup_ne vp ts
  have hbp2 : vp ≠ vp ++ ".backup." ++ toString ts := Ne.symm hbp
  unfold writeFileM
  rw [hval]
  cases horig : fs vp with
  | some original =>
    unfold readFileM
    rw [hpath]
    simp [FSys.set, FSys.del, hbp, hbp2, hcont, horig]
  | none =>
    unfold readFileM
    rw [hpath]
    simp [FSys.set, FSys.del, hcont, horig]

theorem C3_round_trip_witness :
    readFileM (writeFileM FSys.empty "ok.md" "hello" 7 true "" "EIO").2 "ok.md"
      = .ok "hello" :=
  C3_round_trip FSys.empty "ok.md" "hello" 7 "" "EIO" "/home/user/project_plan/ok.md" rfl

/-- C7.  The universal content rejection fails on the code because the
forbidden-pattern regexes are shared module state with the global flag: on fresh
regexes a write whose content is the claim's script-tag example is rejected inside
validateFileContent, before any disk write, and no file is created - but the
rejection leaves the script-tag regex lastIndex at 25, past the tag, and an
immediately following identical call searches from that stale index, passes
validation and writes the malicious file into the managed directory. -/
theorem C7_content_rejection_bypass :
    (writeFileMST FSys.empty "x.md" "<script>alert(1)</script>" 0 true "" "EIO"
        PatSt.zero).1.1 = .error maliciousMsg
    ∧ (writeFileMST FSys.empty "x.md" "<script>alert(1)</script>" 0 true "" "EIO"
        PatSt.zero).1.2 "/home/user/project_plan/x.md" = none
    ∧ (writeFileMST FSys.empty "x.md" "<script>alert(1)</script>" 0 true "" "EIO"
        PatSt.zero).2 = { s1 := 25, s2 := 0, s3 := 0, s4 := 0, s5 := 0 }
    ∧ (writeFileMST FSys.empty "x.md" "<script>alert(1)</script>" 0 true "" "EIO"
        { s1 := 25, s2 := 0, s3 := 0, s4 := 0, s5 := 0 }).1.1
          = .ok "/home/user/project_plan/x.md"
    ∧ (writeFileMST FSys.empty "x.md" "<script>alert(1)</script>" 0 true "" "EIO"
        { s1 := 25, s2 := 0, s3 := 0, s4 := 0, s5 := 0 }).1.2
          "/home/user/project_plan/x.md" = some "<script>alert(1)</script>" :=
  ⟨rfl, rfl, rfl, rfl, rfl⟩

/-- C9.  The five forbidden-pattern regexes are shared module state with the global
flag, so validateFileContent is not a function of its content argument: the same
string is rejected by a first call (which leaves the matching regex lastIndex
behind the occurrence) and accepted by an immediately following second call.  On
fresh regexes the same string is rejected, which is the behaviour the specification
describes as pure validation. -/
theorem C9_stateful_regex_bug :
    validateFileContentST "javascript:x" PatSt.zero
        = (.error maliciousMsg, { s1 := 0, s2 := 11, s3 := 0, s4 := 0, s5 := 0 })
    ∧ (validateFileContentST "javascript:x"
        { s1 := 0, s2 := 11, s3 := 0, s4 := 0, s5 := 0 }).1 = .ok ()
    ∧ validateFileContent "javascript:x" = .error maliciousMsg :=
  ⟨rfl, rfl, rfl⟩

/-- C10.  Error conflation in show_current: whenever the underlying readFile of
CURRENT.md fails, for any reason at all, the tool answers with the one fixed
not-found message and the error flag; a successful read is passed through verbatim,
so no other error text is ever produced. -/
theorem C10_error_conflation (fs : FSys) :
    ((showCurrent fs).isError = true → (showCurrent fs).text = showCurrentMsg)
    ∧ (∀ e, readFileM fs "CURRENT.md" = .error e →
        showCurrent fs = { text := showCurrentMsg, isError := true })
    ∧ (∀ c, readFileM fs "CURRENT.md" = .ok c →
        showCurrent fs = { text := c, isError := false }) := by
  unfold showCurrent
  cases h : readFileM fs "CURRENT.md" with
  | ok c =>
    refine ⟨fun hh => by simp at hh, fun e he => by simp at he, fun c2 hc => ?_⟩
    injection hc with hc
    rw [hc]
  | error e0 =>
    refine ⟨fun _ => rfl, fun e he => rfl, fun c2 hc => by simp at hc⟩

theorem C10_error_conflation_witness :
    showCurrent (FSys.empty.set "/home/user/project_plan/CURRENT.md" "javascript:x")
        = { text := showCurrentMsg, isError := true }
    ∧ showCurrent FSys.empty = { text := showCurrentMsg, isError := true }
    ∧ showCurrent (FSys.empty.set "/home/user/project_plan/CURRENT.md" "all good")
        = { text := "all good", isError := false } :=
  ⟨(C10_error_conflation
      (FSys.empty.set "/home/user/project_plan/CURRENT.md" "javascript:x")).2.1
        maliciousMsg rfl,
   (C10_error_conflation FSys.empty).2.1
      ("File not accessible: " ++ "/home/user/project_plan/CURRENT.md") rfl,
   (C10_error_conflation
      (FSys.empty.set "/home/user/project_plan/CURRENT.md" "all good")).2.2
        "all good" rfl⟩

/-- C1, counterexample to the claim as stated: an absolute path into a sibling
directory whose name extends the managed root name is accepted and returned even
though it lies outside the managed directory (the containment check is a plain
string-prefix test on the resolved path), and an input containing a parent-segment
sequence is accepted because path normalization removes the inner parent segment
before the dangerous-pattern check runs. -/
theorem C1_path_containment_counterexample :
    validateFilePath projectPlanDir "/home/user/project_plan_evil/x.md"
        = .ok "/home/user/project_plan_evil/x.md"
    ∧ strStartsWith "/home/user/project_plan_evil/x.md" (projectPlanDir ++ "/") = false
    ∧ "/home/user/project_plan_evil/x.md" ≠ projectPlanDir
    ∧ containsSub "foo/../ok.md" "../" = true
    ∧ validateFilePath projectPlanDir "foo/../ok.md" = .ok "/home/user/project_plan/ok.md" :=
  ⟨rfl, by decide, by decide, by decide, rfl⟩

/-- C1, amended.  What validateFilePath actually guarantees: every input whose
normalized form still contains a parent-segment pair or a tilde fails; every
accepted input is returned as its resolution against the trusted root and that
result carries the resolved root as a string prefix (which is weaker than lying
inside the root directory, witness the counterexample); and every candidate that
passes the prefix test after resolution, is free of parent segments and tildes
after normalization, and satisfies the nonempty-input, length, filename-character
and extension policy is accepted with the resolved path as result. -/
theorem C1_path_containment :
    (∀ root p,
      (containsSub (normalizePath p) ".." || containsSub (normalizePath p) "~") = true →
      ∃ e, validateFilePath root p = .error e)
    ∧ (∀ root p q, validateFilePath root p = .ok q →
      q = resolvePath root (normalizePath p) ∧ strStartsWith q (resolveAbs root) = true)
    ∧ (∀ root p, p ≠ "" → p.length ≤ maxFilenameLength →
      strStartsWith (resolvePath root (normalizePath p)) (resolveAbs root) = true →
      containsSub (normalizePath p) ".." = false →
      containsSub (normalizePath p) "~" = false →
      basenameOf (resolvePath root (normalizePath p)) ≠ "" →
      (basenameOf (resolvePath root (normalizePath p))).data.all isSafeFilenameChar = true →
      (allowedFileExtensions.any fun ext =>
        strEndsWith (lowerStr (basenameOf (resolvePath root (normalizePath p))))
          (lowerStr ext)) = true →
      validateFilePath root p = .ok (resolvePath root (normalizePath p))) := by
  refine ⟨?_, ?_, ?_⟩
  · intro root p hdanger
    unfold validateFilePath
    by_cases h0 : p = ""
    · exact ⟨_, by rw [if_pos h0]⟩
    · rw [if_neg h0]
      by_cases h1 : p.length > maxFilenameLength
      · exact ⟨_, by rw [if_pos h1]⟩
      · rw [if_neg h1]
        simp only [hdanger]
        by_cases h2 : (!strStartsWith (resolvePath root (normalizePath p)) (resolveAbs root)) = true
        · exact ⟨_, by rw [if_pos h2]⟩
        · rw [if_neg h2]
          exact ⟨_, rfl⟩
  · intro root p q h
    unfold validateFilePath at h
    by_cases h0 : p = ""
    · rw [if_pos h0] at h; simp at h
    · rw [if_neg h0] at h
      by_cases h1 : p.length > maxFilenameLength
      · rw [if_pos h1] at h; simp at h
      · rw [if_neg h1] at h
        by_cases h2 : (!strStartsWith (resolvePath root (normalizePath p)) (resolveAbs root)) = true
        · rw [if_pos h2] at h; simp at h
        · rw [if_neg h2] at h
          have h2' : strStartsWith (resolvePath root (normalizePath p)) (resolveAbs root) = true := by
            cases hx : strStartsWith (resolvePath root (normalizePath p)) (resolveAbs root)
            · rw [hx] at h2; simp at h2
            · rfl
          by_cases h3 : (containsSub (normalizePath p) ".." || containsSub (normalizePath p) "~") = true
          · rw [if_pos h3] at h; simp at h
          · rw [if_neg h3] at h
            by_cases h4 : (basenameOf (resolvePath root (normalizePath p)) == ""
                || !(basenameOf (resolvePath root (normalizePath p))).data.all isSafeFilenameChar) = true
            · rw [if_pos h4] at h; simp at h
            · rw [if_neg h4] at h
              by_cases h5 : (!(allowedFileExtensions.any fun ext =>
                  strEndsWith (lowerStr (basenameOf (resolvePath root (normalizePath p))))
                    (lowerStr ext))) = true
              · rw [if_pos h5] at h; simp at h
              · rw [if_neg h5] at h
                injection h with h
                exact ⟨h.symm, h ▸ h2'⟩
  · intro root p h0 h1 h2 h3 h4 h5 h6 h7
    unfold validateFilePath
    rw [if_neg h0, if_neg (by omega : ¬ p.length > maxFilenameLength)]
    simp only [h2, h3, h4, h6, h7, Bool.not_true, Bool.or_self, Bool.false_eq_true,
      if_false]
    simp [h5]

theorem C1_path_containment_witness :
    (∃ e, validateFilePath projectPlanDir "../x.md" = .error e)
    ∧ ("/home/user/project_plan/ok.md" = resolvePath projectPlanDir (normalizePath "ok.md")
      ∧ strStartsWith "/home/user/project_plan/ok.md" (resolveAbs projectPlanDir) = true)
    ∧ validateFilePath projectPlanDir "b.md"
        = .ok (resolvePath projectPlanDir (normalizePath "b.md")) :=
  ⟨C1_path_containment.1 projectPlanDir "../x.md" (by decide),
   C1_path_containment.2.1 projectPlanDir "ok.md" "/home/user/project_plan/ok.md" rfl,
   C1_path_containment.2.2 projectPlanDir "b.md" (by decide) (by decide) (by decide)
     (by decide) (by decide) (by decide) (by decide) (by decide)⟩

/-- C4, counterexample to the claim as stated: the fixed core document name matches
only the core pattern of FILE_PATTERNS, yet categorizeFile never consults that
pattern and returns the doc fallback; the category type of the code has no core
value at all, so no filename is ever categorized as core. -/
theorem C4_category_counterexample :
    corePat "PLAN.md" = true ∧ sprintPat "PLAN.md" = false ∧ docPat "PLAN.md" = false
    ∧ codePat "PLAN.md" = false ∧ opinionPat "PLAN.md" = false
    ∧ categorizeFile "PLAN.md" = .doc := by
  refine ⟨by decide, by decide, by decide, by decide, by decide, by decide⟩

/-- C4, amended.  Category derivation over the four patterns the code consults:
categorizeFile is first-match-wins over the ordered table sprint, doc, code,
opinion with doc as the explicit default, the five example names of the claim are
categorized as stated, and the core documents fall back to doc. -/
theorem C4_category_derivation :
    (∀ name, categorizeFile name = firstMatchCategory name)
    ∧ categorizeFile "M01_S02.foo.md" = .sprint
    ∧ categorizeFile "DOCREF_007.bar.md" = .doc
    ∧ categorizeFile "CODEREF_baz.md" = .code
    ∧ categorizeFile "OPINIONS_002.qux.md" = .opinion
    ∧ categorizeFile "README.md" = .doc
    ∧ categorizeFile "PLAN.md" = .doc
    ∧ categorizeFile "CURRENT.md" = .doc := by
  refine ⟨fun name => ?_, by decide, by decide, by decide, by decide, by decide,
    by decide, by decide⟩
  unfold categorizeFile firstMatchCategory categoryTable
  cases h1 : sprintPat name <;> cases h2 : docPat name <;> cases h3 : codePat name <;>
    cases h4 : opinionPat name <;> simp [h1, h2, h3, h4, List.find?]

theorem natCompare_swap (a b : Nat) : compare a b = (compare b a).swap := by
  rcases Nat.lt_trichotomy a b with h | h | h
  · rw [Nat.compare_eq_lt.mpr h, Nat.compare_eq_gt.mpr h]
    rfl
  · subst h
    rw [Nat.compare_eq_eq.mpr rfl]
    rfl
  · rw [Nat.compare_eq_gt.mpr h, Nat.compare_eq_lt.mpr h]
    rfl

theorem natCompare_lt_trans {a b c : Nat} (h1 : compare a b = .lt) (h2 : compare b c = .lt) :
    compare a c = .lt := by
  rw [Nat.compare_eq_lt] at *
  omega

theorem charCmp_swap (a b : Char) : charCmp a b = (charCmp b a).swap :=
  natCompare_swap a.toNat b.toNat

theorem charCmp_eq_iff (a b : Char) : charCmp a b = .eq ↔ a = b := by
  unfold charCmp
  rw [Nat.compare_eq_eq]
  constructor
  · intro h
    exact Char.eq_of_val_eq (UInt32.ext h)
  · intro h
    rw [h]

theorem charCmp_lt_trans {a b c : Char} (h1 : charCmp a b = .lt) (h2 : charCmp b c = .lt) :
    charCmp a c = .lt := natCompare_lt_trans h1 h2

theorem lexCmp_swap {α} (cmp : α → α → Ordering) (hsw : ∀ a b, cmp a b = (cmp b a).swap) :
    ∀ as bs, lexCmp cmp as bs = (lexCmp cmp bs as).swap := by
  intro as
  induction as with
  | nil => intro bs; cases bs <;> rfl
  | cons a as ih =>
    intro bs
    cases bs with
    | nil => rfl
    | cons b bs =>
      simp only [lexCmp]
      rw [hsw a b]
      cases cmp b a <;> simp [Ordering.swap, ih bs]

theorem lexCmp_eq_iff {α} (cmp : α → α → Ordering) (heq : ∀ a b, cmp a b = .eq ↔ a = b) :
    ∀ as bs, lexCmp cmp as bs = .eq ↔ as = bs := by
  intro as
  induction as with
  | nil => intro bs; cases bs <;> simp [lexCmp]
  | cons a as ih =>
    intro bs
    cases bs with
    | nil => simp [lexCmp]
    | cons b bs =>
      simp only [lexCmp]
      cases h : cmp a b with
      | eq =>
        have hab := (heq a b).mp h
        subst hab
        simp [ih bs]
      | lt =>
        constructor
        · intro hh; cases hh
        · intro hh
          injection hh with hh1 hh2
          subst hh1
          rw [(heq a a).mpr rfl] at h
          cases h
      | gt =>
        constructor
        · intro hh; cases hh
        · intro hh
          injection hh with hh1 hh2
          subst hh1
          rw [(heq a a).mpr rfl] at h
          cases h

theorem lexCmp_lt_trans {α} (cmp : α → α → Ordering)
    (heq : ∀ a b, cmp a b = .eq ↔ a = b)
    (hlt : ∀ {a b c}, cmp a b = .lt → cmp b c = .lt → cmp a c = .lt) :
    ∀ as bs cs, lexCmp cmp as bs = .lt → lexCmp cmp bs cs = .lt →
      lexCmp cmp as cs = .lt := by
  intro as
  induction as with
  | nil =>
    intro bs cs h1 h2
    cases bs with
    | nil => cases h1
    | cons b bs =>
      cases cs with
      | nil => exact absurd h2 (by simp [lexCmp])
      | cons c cs => simp [lexCmp]
  | cons a as ih =>
    intro bs cs h1 h2
    cases bs with
    | nil => exact absurd h1 (by simp [lexCmp])
    | cons b bs =>
      cases cs with
      | nil => exact absurd h2 (by simp [lexCmp])
      | cons c cs =>
        simp only [lexCmp] at h1 h2 ⊢
        cases hab : cmp a b with
        | gt => rw [hab] at h1; cases h1
        | lt =>
          rw [hab] at h1
          cases hbc : cmp b c with
          | gt => rw [hbc] at h2; cases h2
          | lt => rw [hlt hab hbc]
          | eq =>
            have hbc2 := (heq b c).mp hbc
            subst hbc2
            rw [hab]
        | eq =>
          have hab2 := (heq a b).mp hab
          subst hab2
          rw [hab] at h1
          cases hbc : cmp a c with
          | gt => rw [hbc] at h2; cases h2
          | lt => rfl
          | eq =>
            rw [hbc] at h2
            exact ih bs cs h1 h2

theorem lexCmp_le_trans {α} (cmp : α → α → Ordering)
    (heq : ∀ a b, cmp a b = .eq ↔ a = b)
    (hlt : ∀ {a b c}, cmp a b = .lt → cmp b c = .lt → cmp a c = .lt)
    {as bs cs : List α} (h1 : lexCmp cmp as bs ≠ .gt) (h2 : lexCmp cmp bs cs ≠ .gt) :
    lexCmp cmp as cs ≠ .gt := by
  cases hab : lexCmp cmp as bs with
  | gt => exact absurd hab h1
  | lt =>
    cases hbc : lexCmp cmp bs cs with
    | gt => exact absurd hbc h2
    | lt => rw [lexCmp_lt_trans cmp heq hlt as bs cs hab hbc]; simp
    | eq =>
      have h := (lexCmp_eq_iff cmp heq bs cs).mp hbc
      rw [← h, hab]
      simp
  | eq =>
    have h := (lexCmp_eq_iff cmp heq as bs).mp hab
    rw [h]
    exact h2

theorem localeCmp_swap (s t : String) : localeCmp s t = (localeCmp t s).swap := by
  unfold localeCmp
  rw [lexCmp_swap charCmp charCmp_swap (s.data.map Char.toLower) (t.data.map Char.toLower)]
  cases h : lexCmp charCmp (t.data.map Char.toLower) (s.data.map Char.toLower) with
  | lt => rfl
  | gt => rfl
  | eq =>
    simp only [Ordering.swap]
    exact lexCmp_swap compare natCompare_swap _ _

theorem localeCmp_le_trans {s t u : String} (h1 : localeCmp s t ≠ .gt)
    (h2 : localeCmp t u ≠ .gt) : localeCmp s u ≠ .gt := by
  unfold localeCmp at h1 h2 ⊢
  cases hst : lexCmp charCmp (s.data.map Char.toLower) (t.data.map Char.toLower) with
  | gt => rw [hst] at h1; exact absurd rfl h1
  | lt =>
    cases htu : lexCmp charCmp (t.data.map Char.toLower) (u.data.map Char.toLower) with
    | gt => rw [htu] at h2; exact absurd rfl h2
    | lt =>
      rw [lexCmp_lt_trans charCmp charCmp_eq_iff charCmp_lt_trans _ _ _ hst htu]
      simp
    | eq =>
      have h := (lexCmp_eq_iff charCmp charCmp_eq_iff _ _).mp htu
      rw [← h, hst]
      simp
  | eq =>
    have h := (lexCmp_eq_iff charCmp charCmp_eq_iff _ _).mp hst
    rw [hst] at h1
    cases htu : lexCmp charCmp (t.data.map Char.toLower) (u.data.map Char.toLower) with
    | gt => rw [htu] at h2; exact absurd rfl h2
    | lt =>
      rw [h, htu]
      simp
    | eq =>
      rw [htu] at h2
      have h' := (lexCmp_eq_iff charCmp charCmp_eq_iff _ _).mp htu
      rw [(lexCmp_eq_iff charCmp charCmp_eq_iff _ _).mpr (h.trans h')]
      exact lexCmp_le_trans compare (fun a b => Nat.compare_eq_eq)
        (fun ha hb => natCompare_lt_trans ha hb) h1 h2

theorem getTypeOrder_inj : ∀ t1 t2 : FileType, getTypeOrder t1 = getTypeOrder t2 → t1 = t2 := by
  intro t1 t2
  cases t1 <;> cases t2 <;> decide

theorem jsSortLe_eq_true_iff (a b : FileInfo) :
    jsSortLe a b = true ↔
      (getTypeOrder a.ftype < getTypeOrder b.ftype
        ∨ (a.ftype = b.ftype ∧ localeCmp a.name b.name ≠ .gt)) := by
  unfold jsSortLe jsCompare
  by_cases h : a.ftype = b.ftype
  · rw [if_neg (not_not_intro h)]
    constructor
    · intro hh
      refine Or.inr ⟨h, fun hgt => ?_⟩
      rw [hgt] at hh
      cases hh
    · intro hh
      rcases hh with hlt | ⟨_, hne⟩
      · rw [h] at hlt; exact absurd hlt (lt_irrefl _)
      · cases hc : localeCmp a.name b.name with
        | gt => exact absurd hc hne
        | lt => rfl
        | eq => rfl
  · rw [if_pos h]
    constructor
    · intro hh
      left
      cases hc : compare (getTypeOrder a.ftype) (getTypeOrder b.ftype) with
      | gt => rw [hc] at hh; cases hh
      | lt => exact Nat.compare_eq_lt.mp hc
      | eq => exact absurd (getTypeOrder_inj _ _ (Nat.compare_eq_eq.mp hc)) h
    · intro hh
      rcases hh with hlt | ⟨he, _⟩
      · rw [Nat.compare_eq_lt.mpr hlt]
      · exact absurd he h

theorem jsSortLe_trans (a b c : FileInfo) (h1 : jsSortLe a b = true)
    (h2 : jsSortLe b c = true) : jsSortLe a c = true := by
  rw [jsSortLe_eq_true_iff] at h1 h2 ⊢
  rcases h1 with h1 | ⟨e1, l1⟩ <;> rcases h2 with h2 | ⟨e2, l2⟩
  · exact Or.inl (lt_trans h1 h2)
  · exact Or.inl (e2 ▸ h1)
  · exact Or.inl (e1 ▸ h2)
  · exact Or.inr ⟨e1.trans e2, localeCmp_le_trans l1 l2⟩

theorem jsSortLe_total (a b : FileInfo) : (jsSortLe a b || jsSortLe b a) = true := by
  unfold jsSortLe jsCompare
  by_cases h : a.ftype = b.ftype
  · rw [if_neg (not_not_intro h), if_neg (not_not_intro h.symm)]
    rw [localeCmp_swap a.name b.name]
    cases localeCmp b.name a.name <;> rfl
  · rw [if_pos h, if_pos (Ne.symm h)]
    rw [natCompare_swap (getTypeOrder a.ftype) (getTypeOrder b.ftype)]
    cases compare (getTypeOrder b.ftype) (getTypeOrder a.ftype) <;> rfl

theorem mem_insOrd {α} (le : α → α → Bool) (a x : α) :
    ∀ l, x ∈ insOrd le a l → x = a ∨ x ∈ l := by
  intro l
  induction l with
  | nil =>
    intro h
    simp [insOrd] at h
    exact Or.inl h
  | cons b t ih =>
    intro h
    by_cases hc : le a b = true
    · simp only [insOrd, if_pos hc] at h
      rcases List.mem_cons.mp h with h | h
      · exact Or.inl h
      · exact Or.inr h
    · simp only [insOrd, if_neg hc] at h
      rcases List.mem_cons.mp h with h | h
      · exact Or.inr (h ▸ List.mem_cons_self b t)
      · rcases ih h with h | h
        · exact Or.inl h
        · exact Or.inr (List.mem_cons_of_mem b h)

theorem pairwise_insOrd {α} (le : α → α → Bool)
    (htr : ∀ a b c, le a b = true → le b c = true → le a c = true)
    (hto : ∀ a b, (le a b || le b a) = true) (a : α) :
    ∀ l, l.Pairwise (fun x y => le x y = true) →
      (insOrd le a l).Pairwise (fun x y => le x y = true) := by
  intro l
  induction l with
  | nil => intro _; simp [insOrd]
  | cons b t ih =>
    intro h
    rcases List.pairwise_cons.mp h with ⟨hb, ht⟩
    by_cases hc : le a b = true
    · simp only [insOrd, if_pos hc]
      refine List.pairwise_cons.mpr ⟨?_, h⟩
      intro x hx
      rcases List.mem_cons.mp hx with hx | hx
      · exact hx ▸ hc
      · exact htr a b x hc (hb x hx)
    · simp only [insOrd, if_neg hc]
      refine List.pairwise_cons.mpr ⟨?_, ih ht⟩
      intro x hx
      rcases mem_insOrd le a x t hx with hx | hx
      · rw [hx]
        have hab : le a b = false := by
          cases hle : le a b
          · rfl
          · exact absurd hle hc
        have htot := hto a b
        rw [hab] at htot
        simpa using htot
      · exact hb x hx

theorem pairwise_stableSort {α} (le : α → α → Bool)
    (htr : ∀ a b c, le a b = true → le b c = true → le a c = true)
    (hto : ∀ a b, (le a b || le b a) = true) :
    ∀ l : List α, (stableSort le l).Pairwise (fun x y => le x y = true) := by
  intro l
  induction l with
  | nil => simp [stableSort]
  | cons a t ih => exact pairwise_insOrd le htr hto a _ ih

theorem perm_insOrd {α} (le : α → α → Bool) (a : α) :
    ∀ l, (insOrd le a l).Perm (a :: l) := by
  intro l
  induction l with
  | nil => exact List.Perm.refl _
  | cons b t ih =>
    by_cases hc : le a b = true
    · simp only [insOrd, if_pos hc]
      exact List.Perm.refl _
    · simp only [insOrd, if_neg hc]
      exact (ih.cons b).trans (List.Perm.swap a b t)

theorem perm_stableSort {α} (le : α → α → Bool) :
    ∀ l : List α, (stableSort le l).Perm l := by
  intro l
  induction l with
  | nil => exact List.Perm.refl _
  | cons a t ih => exact (perm_insOrd le a (stableSort le t)).trans (ih.cons a)

/-- C6, counterexample to the claim as stated: two names of the doc category are
listed in locale order, which is the opposite of the case-sensitive byte order the
claim prescribes (the lexicographic order on Lean strings compares code points,
which is byte order for these ASCII names). -/
theorem C6_listing_order_counterexample :
    (listFiles [⟨"AB.md", "x", 1⟩, ⟨"aa.md", "y", 2⟩]).map (fun f => f.name)
        = ["aa.md", "AB.md"]
    ∧ lexCmp charCmp "AB.md".data "aa.md".data = .lt :=
  ⟨by decide, by decide⟩

/-- C6, amended.  The listing is sorted by the comparator the code really uses:
primary key the category rank given by getTypeOrder ascending, secondary key the
locale-aware name comparison of String.prototype.localeCompare (not byte order)
ascending; every listing is pairwise ordered under that comparator and in
particular pairwise nondecreasing in category rank. -/
theorem C6_listing_order :
    (∀ (d : List DirEntry) (t : FileType),
      (listFiles d t).Pairwise (fun a b => jsSortLe a b = true))
    ∧ (∀ (d : List DirEntry) (t : FileType),
      (listFiles d t).Pairwise
        (fun a b => getTypeOrder a.ftype ≤ getTypeOrder b.ftype)) := by
  have hsorted : ∀ (d : List DirEntry) (t : FileType),
      (listFiles d t).Pairwise (fun a b => jsSortLe a b = true) := by
    intro d t
    unfold listFiles
    exact pairwise_stableSort jsSortLe jsSortLe_trans jsSortLe_total _
  refine ⟨hsorted, fun d t => (hsorted d t).imp ?_⟩
  intro a b hab
  rcases (jsSortLe_eq_true_iff a b).mp hab with h | ⟨he, _⟩
  · exact le_of_lt h
  · rw [he]

theorem recordType_toFileType_ne_all : ∀ t : RecordType, t.toFileType ≠ .all := by
  intro t
  cases t <;> decide

theorem filterMap_listFiles_perm {β} (d : List DirEntry) (t : FileType)
    (g : FileInfo → Option β) :
    ((listFiles d t).filterMap g).Perm
      ((d.filterMap fun e =>
        if !strEndsWith e.name ".md" then none
        else
          let ft := categorizeFile e.name
          if t ≠ .all ∧ ft ≠ t then none
          else some { name := e.name, path := projectPlanDir ++ "/" ++ e.name, ftype := ft,
                      lineCount := e.content.data.count '\n' + 1,
                      lastModified := e.mtime, size := e.content.utf8ByteSize }).filterMap g) := by
  unfold listFiles
  exact (perm_stableSort jsSortLe _).filterMap g

theorem listFiles_extract_perm (d : List DirEntry) (t : RecordType) :
    ((listFiles d t.toFileType).filterMap fun f => extractSeq t.stem f.name).Perm
      (categorySeqNums d t) := by
  refine (filterMap_listFiles_perm d t.toFileType fun f => extractSeq t.stem f.name).trans ?_
  rw [List.filterMap_filterMap]
  have heq : (fun (e : DirEntry) =>
      (if !strEndsWith e.name ".md" then none
       else
         let ft := categorizeFile e.name
         if t.toFileType ≠ .all ∧ ft ≠ t.toFileType then none
         else some { name := e.name, path := projectPlanDir ++ "/" ++ e.name, ftype := ft,
                     lineCount := e.content.data.count '\n' + 1,
                     lastModified := e.mtime,
                     size := e.content.utf8ByteSize : FileInfo }).bind
        fun f => extractSeq t.stem f.name)
      = fun (e : DirEntry) => if strEndsWith e.name ".md" && (categorizeFile e.name == t.toFileType) then
          extractSeq t.stem e.name
        else none := by
    funext e
    cases hE : strEndsWith e.name ".md" with
    | false => simp [hE]
    | true =>
      by_cases hC : categorizeFile e.name = t.toFileType
      · simp [hE, hC]
      · simp [hE, hC, recordType_toFileType_ne_all t]
  rw [heq]
  exact List.Perm.refl _

theorem foldl_max_perm {l1 l2 : List Nat} (h : l1.Perm l2) :
    ∀ a, l1.foldl Nat.max a = l2.foldl Nat.max a := by
  induction h with
  | nil => intro a; rfl
  | cons x _ ih => intro a; simp only [List.foldl_cons]; exact ih _
  | swap x y l =>
    intro a
    simp only [List.foldl_cons]
    have hxy : Nat.max (Nat.max a y) x = Nat.max (Nat.max a x) y := by
      have ha1 : Nat.max (Nat.max a y) x = Nat.max a (Nat.max y x) := Nat.max_assoc a y x
      have ha2 : Nat.max y x = Nat.max x y := Nat.max_comm y x
      have ha3 : Nat.max a (Nat.max x y) = Nat.max (Nat.max a x) y := (Nat.max_assoc a x y).symm
      rw [ha1, ha2, ha3]
    rw [hxy]
  | trans _ _ ih1 ih2 => intro a; exact (ih1 a).trans (ih2 a)

theorem listMax_if (nums : List Nat) :
    (if nums = [] then 1 else listMax nums + 1) = nums.foldl Nat.max 0 + 1 := by
  cases nums with
  | nil => simp [listMax]
  | cons x xs => simp [listMax]

/-- C5.  Sequence monotonicity: for the doc and opinion categories the generated
name embeds the three-digit zero-padded successor of the maximum sequence number
extracted from the existing filenames of that category (one when none exist; the
maximum over the empty list of naturals is zero, so the successor form covers both
cases), independent of the listing order; and with existing documents numbered 001
and 003 the next generated doc name uses 004, the maximum plus one rather than the
count plus one. -/
theorem C5_sequence_monotonicity :
    (∀ (d : List DirEntry) (target : String),
      generateFileName d .doc target
        = "DOCREF_" ++ pad3 ((categorySeqNums d .doc).foldl Nat.max 0 + 1) ++ "."
            ++ sanitizeFileName target ++ ".md")
    ∧ (∀ (d : List DirEntry) (target : String),
      generateFileName d .opinion target
        = "OPINIONS_" ++ pad3 ((categorySeqNums d .opinion).foldl Nat.max 0 + 1) ++ "."
            ++ sanitizeFileName target ++ ".md")
    ∧ generateFileName [⟨"DOCREF_001.x.md", "a", 1⟩, ⟨"DOCREF_003.x.md", "b", 2⟩] .doc "q"
        = "DOCREF_004.q.md" := by
  have hdoc : ∀ (d : List DirEntry) (target : String),
      generateFileName d .doc target
        = "DOCREF_" ++ pad3 ((categorySeqNums d .doc).foldl Nat.max 0 + 1) ++ "."
            ++ sanitizeFileName target ++ ".md" := by
    intro d target
    have hmax := foldl_max_perm (listFiles_extract_perm d .doc) 0
    simp only [generateFileName]
    rw [listMax_if, hmax]
    rfl
  have hopinion : ∀ (d : List DirEntry) (target : String),
      generateFileName d .opinion target
        = "OPINIONS_" ++ pad3 ((categorySeqNums d .opinion).foldl Nat.max 0 + 1) ++ "."
            ++ sanitizeFileName target ++ ".md" := by
    intro d target
    have hmax := foldl_max_perm (listFiles_extract_perm d .opinion) 0
    simp only [generateFileName]
    rw [listMax_if, hmax]
    rfl
  exact ⟨hdoc, hopinion, by decide⟩

theorem foldl_max_eq (l : List Nat) : ∀ a, l.foldl Nat.max a = l.max?.elim a (Nat.max a) := by
  induction l with
  | nil => intro a; rfl
  | cons x xs ih =>
    intro a
    rw [List.foldl_cons, ih (Nat.max a x), List.max?_cons]
    cases hxs : xs.max? with
    | none => simp [Option.elim]
    | some m =>
      simp only [Option.elim]
      exact Nat.max_assoc a x m

theorem counts_foldl (files : List FileInfo) : ∀ c : FileTypeCounts,
    (files.foldl (fun c f => bumpCount c f.ftype) c).all = c.all
    ∧ (files.foldl (fun c f => bumpCount c f.ftype) c).sprint
        = c.sprint + files.countP (fun f => f.ftype == .sprint)
    ∧ (files.foldl (fun c f => bumpCount c f.ftype) c).doc
        = c.doc + files.countP (fun f => f.ftype == .doc)
    ∧ (files.foldl (fun c f => bumpCount c f.ftype) c).code
        = c.code + files.countP (fun f => f.ftype == .code)
    ∧ (files.foldl (fun c f => bumpCount c f.ftype) c).opinion
        = c.opinion + files.countP (fun f => f.ftype == .opinion) := by
  induction files with
  | nil => intro c; simp
  | cons f fs ih =>
    intro c
    obtain ⟨h1, h2, h3, h4, h5⟩ := ih (bumpCount c f.ftype)
    rw [List.foldl_cons]
    cases hf : f.ftype <;>
      rw [hf] at h1 h2 h3 h4 h5 <;>
        simp only [bumpCount] at h1 h2 h3 h4 h5 <;>
          refine ⟨?_, ?_, ?_, ?_, ?_⟩ <;>
            simp [List.countP_cons, hf, h1, h2, h3, h4, h5, bumpCount] <;> omega

/-- C8.  Status freshness: getProjectStatus is fully derived from a fresh listing
of the directory: lastUpdated is the maximum modification time over the listed
documents and falls back to the supplied current time exactly when the listing is
empty, the total and the per-category counters count that same listing, and the
core-document flag probes the directory itself. -/
theorem C8_status_freshness (d : List DirEntry) (now : Nat) :
    (getProjectStatus d now).lastUpdated
        = ((listFiles d).map (fun f => f.lastModified)).max?.getD now
    ∧ (getProjectStatus d now).totalFiles = (listFiles d).length
    ∧ (getProjectStatus d now).filesByType.all = (listFiles d).length
    ∧ (getProjectStatus d now).filesByType.sprint
        = (listFiles d).countP (fun f => f.ftype == .sprint)
    ∧ (getProjectStatus d now).filesByType.doc
        = (listFiles d).countP (fun f => f.ftype == .doc)
    ∧ (getProjectStatus d now).filesByType.code
        = (listFiles d).countP (fun f => f.ftype == .code)
    ∧ (getProjectStatus d now).filesByType.opinion
        = (listFiles d).countP (fun f => f.ftype == .opinion)
    ∧ (getProjectStatus d now).hasProjectPlan = hasValidProjectPlan d := by
  obtain ⟨h1, h2, h3, h4, h5⟩ := counts_foldl (listFiles d)
    { all := (listFiles d).length, sprint := 0, doc := 0, code := 0, opinion := 0 }
  unfold getProjectStatus
  refine ⟨?_, rfl, ?_, ?_, ?_, ?_, ?_, rfl⟩
  · cases hfl : listFiles d with
    | nil => simp
    | cons f fs =>
      simp only [List.length_cons, List.map_cons]
      rw [if_pos (Nat.succ_pos fs.length)]
      unfold listMax
      rw [List.foldl_cons]
      have h0 : Nat.max 0 f.lastModified = f.lastModified := Nat.max_eq_right (Nat.zero_le _)
      rw [h0, List.max?_cons]
      simp only [Option.getD_some]
      exact foldl_max_eq _ f.lastModified
  · simpa using h1
  · simpa using h2
  · simpa using h3
  · simpa using h4
  · simpa using h5

end ProjMCP
